import Mathlib

/-!
Verification of the asynchronous double-buffered logger
(`cyber/logger/async_logger.h`).

The `Buffer` struct and its inline members (`clear`, `add`,
`needs_flush_or_write`) are embedded directly from the header.  The
bodies of `AsyncLogger::Write`, `Flush`, `RunThread`, `BufferFull` and
`LogSize` live in a translation unit that is not part of the sources at
hand, so the controller is modelled from the design document as a small
transition system over an explicit state.
-/

/-- Per-record overhead added to the size estimate: `sizeof(Msg)` in the
source (`time_t` + `std::string` + `int32_t` plus padding on a common
LP64 platform). -/
def sizeofMsg : Nat := 48

/-- Two's-complement reduction to 32-bit `int`: the semantics of
`std::atomic<int>` arithmetic (`size += ...`), which the C++ standard
defines to wrap. -/
def wrap32 (x : Int) : Int := (x + 2 ^ 31) % 2 ^ 32 - 2 ^ 31

/-- `static_cast<int>` of an unsigned value. -/
def toInt32 (n : Nat) : Int := wrap32 (n : Int)

/-- A buffered message: `struct Msg { time_t ts; std::string message;
int32_t level; }`.  The text is kept as a byte/char sequence so that its
length is the `message.size()` of the source. -/
structure Msg where
  ts : Int
  message : List Char
  level : Int
deriving DecidableEq

/-- The amount `Buffer::add` adds to `size`:
`static_cast<int>(sizeof(msg)) + static_cast<int>(msg.message.size())`. -/
def Msg.cost (m : Msg) : Int := toInt32 sizeofMsg + toInt32 m.message.length

/-- The exact (unwrapped) per-record contribution the spec describes:
per-record overhead plus text length. -/
def Msg.exactCost (m : Msg) : Int := (sizeofMsg : Int) + m.message.length

/-- `struct Buffer { std::vector<Msg> messages; std::atomic<int> size;
bool flush; }`. -/
structure Buffer where
  messages : List Msg
  size : Int
  flush : Bool
deriving DecidableEq

/-- `Buffer()` — default construction: empty vector, `size = {0}`,
`flush = false`. -/
def Buffer.empty : Buffer := ⟨[], 0, false⟩

/-- `Buffer::clear`: `messages.clear(); size = 0; flush = false;`. -/
def Buffer.clear (_ : Buffer) : Buffer := ⟨[], 0, false⟩

/-- `Buffer::add`: grow the size estimate by `sizeof(msg) +
msg.message.size()` (32-bit wrapping `+=`), append the message, OR the
`flush` flag with `force_flush`. -/
def Buffer.add (b : Buffer) (m : Msg) (force_flush : Bool) : Buffer :=
  ⟨b.messages ++ [m], wrap32 (b.size + m.cost), b.flush || force_flush⟩

/-- `Buffer::needs_flush_or_write`: `flush || !messages.empty()`. -/
def Buffer.needs_flush_or_write (b : Buffer) : Bool :=
  b.flush || !b.messages.isEmpty

/-- A whole sequence of `add` calls, each with its own `force_flush`
argument, applied in order. -/
def Buffer.addAll (b : Buffer) (l : List (Msg × Bool)) : Buffer :=
  l.foldl (fun acc p => acc.add p.1 p.2) b

/-- Sum of the exact per-record contributions of a sequence of appends. -/
def sumExactCost (l : List (Msg × Bool)) : Int :=
  (l.map (fun p => p.1.exactCost)).sum

-- Arithmetic helper lemmas about the 32-bit reduction.

lemma wrap32_eq_self {x : Int} (h0 : -2 ^ 31 ≤ x) (h1 : x < 2 ^ 31) :
    wrap32 x = x := by
  unfold wrap32
  have hnn : 0 ≤ x + 2 ^ 31 := by linarith
  have hlt : x + 2 ^ 31 < 2 ^ 32 := by norm_num at h1 ⊢; linarith
  rw [Int.emod_eq_of_lt hnn hlt]
  ring

lemma toInt32_of_lt {n : Nat} (h : (n : Int) < 2 ^ 31) : toInt32 n = n := by
  unfold toInt32
  exact wrap32_eq_self (by have := Int.natCast_nonneg n; linarith) h

lemma Msg.exactCost_pos (m : Msg) : 0 < m.exactCost := by
  unfold Msg.exactCost sizeofMsg
  positivity

lemma Msg.cost_eq_exact {m : Msg} (h : (m.message.length : Int) < 2 ^ 31) :
    m.cost = m.exactCost := by
  unfold Msg.cost Msg.exactCost
  rw [toInt32_of_lt h, toInt32_of_lt (by norm_num [sizeofMsg])]

lemma sumExactCost_nonneg (l : List (Msg × Bool)) : 0 ≤ sumExactCost l := by
  unfold sumExactCost
  apply List.sum_nonneg
  intro x hx
  simp only [List.mem_map] at hx
  obtain ⟨p, _, hp⟩ := hx
  exact hp ▸ le_of_lt p.1.exactCost_pos

lemma sumExactCost_cons (p : Msg × Bool) (l : List (Msg × Bool)) :
    sumExactCost (p :: l) = p.1.exactCost + sumExactCost l := by
  simp [sumExactCost]

lemma sumExactCost_append (l₁ l₂ : List (Msg × Bool)) :
    sumExactCost (l₁ ++ l₂) = sumExactCost l₁ + sumExactCost l₂ := by
  simp [sumExactCost]

lemma addAll_cons (b : Buffer) (p : Msg × Bool) (l : List (Msg × Bool)) :
    b.addAll (p :: l) = (b.add p.1 p.2).addAll l := rfl

/-- While the running exact total stays inside the positive 32-bit
range, the wrapping size accumulator agrees with the exact sum. -/
lemma addAll_size_exact (l : List (Msg × Bool)) : ∀ b : Buffer,
    (∀ p ∈ l, (p.1.message.length : Int) < 2 ^ 31) →
    0 ≤ b.size → b.size + sumExactCost l < 2 ^ 31 →
    (b.addAll l).size = b.size + sumExactCost l := by
  induction l with
  | nil => intro b _ _ _; simp [Buffer.addAll, sumExactCost]
  | cons p tl ih =>
    intro b hlen h0 hbound
    rw [addAll_cons, sumExactCost_cons] at *
    have hlenp : (p.1.message.length : Int) < 2 ^ 31 := hlen p (by simp)
    have htl : 0 ≤ sumExactCost tl := sumExactCost_nonneg tl
    have hcost : p.1.cost = p.1.exactCost := Msg.cost_eq_exact hlenp
    have hcpos : 0 < p.1.exactCost := p.1.exactCost_pos
    have hsz : (b.add p.1 p.2).size = b.size + p.1.exactCost := by
      show wrap32 (b.size + p.1.cost) = b.size + p.1.exactCost
      rw [hcost]
      exact wrap32_eq_self (by linarith) (by linarith)
    rw [ih (b.add p.1 p.2) (fun q hq => hlen q (by simp [hq]))
      (by rw [hsz]; linarith) (by rw [hsz]; linarith), hsz]
    ring

lemma addAll_flush (l : List (Msg × Bool)) : ∀ b : Buffer,
    (b.addAll l).flush = (b.flush || l.any (fun p => p.2)) := by
  induction l with
  | nil => intro b; simp [Buffer.addAll]
  | cons p tl ih =>
    intro b
    rw [addAll_cons, ih]
    show ((b.flush || p.2) || tl.any (fun q => q.2)) = _
    simp [Bool.or_assoc]

/-- Claim C5: immediately after `Buffer::clear`, the size estimate is
zero, the message sequence is empty, and the flush flag is reset. -/
theorem clear_resets (b : Buffer) :
    (b.clear).size = 0 ∧ (b.clear).messages = [] ∧ (b.clear).flush = false :=
  ⟨rfl, rfl, rfl⟩

/-- Claim C7: the flush flag of a buffer after a sequence of `add` calls
since the last clear is the OR of the `force_flush` arguments of those
calls; each individual `add` ORs its `force_flush` argument into the
flag. -/
theorem flush_flag_or (b c : Buffer) (l : List (Msg × Bool)) (m : Msg)
    (f : Bool) :
    ((b.clear).addAll l).flush = l.any (fun p => p.2) ∧
      (c.add m f).flush = (c.flush || f) :=
  ⟨by rw [addAll_flush]; rfl, rfl⟩

/-- Claim C9: every `add` leaves the buffer with a non-empty message
list, so `needs_flush_or_write` holds immediately after any append,
regardless of `force_flush`. -/
theorem add_establishes_wake (b : Buffer) (m : Msg) (f : Bool) :
    (b.add m f).needs_flush_or_write = true := by
  unfold Buffer.add Buffer.needs_flush_or_write
  simp

/-- A 2^30-character message, large enough that two appends overflow the
32-bit size accumulator. -/
def bigMsg : Msg := ⟨0, List.replicate (2 ^ 30) 'a', 0⟩

lemma bigMsg_cost : bigMsg.cost = 48 + 2 ^ 30 := by
  unfold Msg.cost bigMsg sizeofMsg
  rw [show (List.replicate (2 ^ 30) 'a').length = 2 ^ 30 from
    List.length_replicate _ _]
  rw [toInt32_of_lt (by norm_num), toInt32_of_lt (by norm_num)]
  norm_num

/-- Refutation for claim C6 at a concrete input: after clearing and then
appending two 2^30-byte messages, the 32-bit size accumulator wraps, so
the second `add` strictly decreases the estimate (not non-decreasing)
and the result differs from the exact sum of per-record contributions. -/
theorem add_size_wraps_counterexample :
    (((Buffer.empty.clear).add bigMsg false).add bigMsg false).size <
        ((Buffer.empty.clear).add bigMsg false).size ∧
      (((Buffer.empty.clear).add bigMsg false).add bigMsg false).size ≠
        bigMsg.exactCost + bigMsg.exactCost := by
  have h1 : ((Buffer.empty.clear).add bigMsg false).size = 48 + 2 ^ 30 := by
    show wrap32 ((0 : Int) + bigMsg.cost) = 48 + 2 ^ 30
    rw [bigMsg_cost]
    norm_num [wrap32]
  have h2 : (((Buffer.empty.clear).add bigMsg false).add bigMsg false).size =
      96 - 2 ^ 31 := by
    show wrap32 (((Buffer.empty.clear).add bigMsg false).size + bigMsg.cost) =
      96 - 2 ^ 31
    rw [h1, bigMsg_cost]
    norm_num [wrap32]
  have h3 : bigMsg.exactCost = 48 + 2 ^ 30 := by
    unfold Msg.exactCost bigMsg sizeofMsg
    rw [show (List.replicate (2 ^ 30) 'a').length = 2 ^ 30 from
      List.length_replicate _ _]
    norm_num
  rw [h1, h2, h3]
  norm_num

/-- Claim C6 as amended: the size estimate equals the sum of per-record
contributions (overhead plus text length) — and in particular grows
monotonically over prefixes of the append sequence — provided every
message is shorter than 2^31 bytes and the exact total stays below 2^31;
beyond that range the 32-bit accumulator wraps. -/
theorem add_size_sum_amended (b : Buffer) (l : List (Msg × Bool))
    (hlen : ∀ p ∈ l, (p.1.message.length : Int) < 2 ^ 31)
    (hsum : sumExactCost l < 2 ^ 31) :
    ((b.clear).addAll l).size = sumExactCost l ∧
      ∀ l₁ l₂, l = l₁ ++ l₂ →
        ((b.clear).addAll l₁).size ≤ ((b.clear).addAll l).size := by
  have hmain : ((b.clear).addAll l).size = sumExactCost l := by
    have := addAll_size_exact l (b.clear) hlen (by norm_num [Buffer.clear])
      (by rw [show (b.clear).size = 0 from rfl]; linarith)
    rw [this]
    show (0 : Int) + _ = _
    ring
  refine ⟨hmain, ?_⟩
  intro l₁ l₂ hsplit
  subst hsplit
  rw [hmain, sumExactCost_append]
  have h₁ : ((b.clear).addAll l₁).size = sumExactCost l₁ := by
    have hn₂ := sumExactCost_nonneg l₂
    have := addAll_size_exact l₁ (b.clear)
      (fun p hp => hlen p (by simp [hp]))
      (by norm_num [Buffer.clear])
      (by rw [show (b.clear).size = 0 from rfl, sumExactCost_append] at *
          linarith)
    rw [this]
    show (0 : Int) + _ = _
    ring
  rw [h₁]
  have := sumExactCost_nonneg l₂
  linarith

/-- Concrete instance discharging the hypotheses of the amended C6
statement. -/
theorem add_size_sum_amended_witness :
    ((Buffer.empty.clear).addAll
        [(⟨0, ['a', 'b'], 0⟩, false), (⟨1, ['c'], 0⟩, true)]).size =
      sumExactCost [(⟨0, ['a', 'b'], 0⟩, false), (⟨1, ['c'], 0⟩, true)] :=
  (add_size_sum_amended Buffer.empty
    [(⟨0, ['a', 'b'], 0⟩, false), (⟨1, ['c'], 0⟩, true)]
    (by decide) (by decide)).1

/-- `enum State { INITTED, RUNNING, STOPPED }` of the controller. -/
inductive LState
  | INITTED
  | RUNNING
  | STOPPED
deriving DecidableEq

/-- Whether the writer task is between its buffer swap and the clearing
of the drained buffer (holding the former active buffer outside the
lock), or idle waiting on the wake condition. -/
inductive Phase
  | idle
  | draining
deriving DecidableEq

/-- Modelled from the spec: the shared state of the `AsyncLogger`
controller.  The bodies of `AsyncLogger::Write`, `Flush`, `RunThread`
and `BufferFull` are not among the sources (only `async_logger.h` is),
so the controller is a transition system built from §4–§5 of the design
document: an active buffer, a flushing buffer, the records already
forwarded to the wrapped sink (in forwarding order), the number of sink
flush calls, the `flush_count_` and `drop_count_` statistics, the
lifecycle state, the writer phase, and the ghost list of all records
ever appended, in append order. -/
structure AState where
  active : Buffer
  flushing : Buffer
  sink : List Msg
  sinkFlushes : Nat
  flushCount : Nat
  dropCount : Nat
  st : LState
  phase : Phase
  appended : List Msg
deriving DecidableEq

/-- Modelled from the spec: state at controller construction — two empty
buffers, zeroed counters, `INITTED`. -/
def initState : AState :=
  ⟨Buffer.empty, Buffer.empty, [], 0, 0, 0, LState.INITTED, Phase.idle, []⟩

/-- Modelled from the spec: the writer's wake condition (§4.5 step 1) —
the active buffer needs a flush or a write, or stop has been signaled. -/
def wakeCond (s : AState) : Prop :=
  s.active.needs_flush_or_write = true ∨ s.st = LState.STOPPED

/-- `Start`: `INITTED → RUNNING`. -/
def startState (s : AState) : AState := { s with st := LState.RUNNING }

/-- Modelled from the spec: the effect of a producer's `Write` once it
is allowed past the backpressure check — append the record to the active
buffer, OR in `force_flush`; the ghost append log records it. -/
def writeState (s : AState) (m : Msg) (f : Bool) : AState :=
  { s with active := s.active.add m f, appended := s.appended ++ [m] }

/-- Modelled from the spec: the first half of `Flush` — mark the active
buffer's flush flag and wake the writer (§4.3). -/
def flushMarkState (s : AState) : AState :=
  { s with active := { s.active with flush := true } }

/-- Modelled from the spec: the writer's buffer swap under the lock
(§4.5 step 2) — exchange the active and flushing slots. -/
def swapState (s : AState) : AState :=
  { s with active := s.flushing, flushing := s.active,
           phase := Phase.draining }

/-- Modelled from the spec: the writer's drain (§4.5 steps 3–4) —
forward the flushing buffer's records to the sink in order, flush the
sink once if the buffer's flag was set, clear the buffer, bump
`flush_count_`, signal completion. -/
def drainState (s : AState) : AState :=
  { s with sink := s.sink ++ s.flushing.messages,
           sinkFlushes := s.sinkFlushes + (if s.flushing.flush then 1 else 0),
           flushing := s.flushing.clear,
           flushCount := s.flushCount + 1,
           phase := Phase.idle }

/-- `Stop`: `RUNNING → STOPPED`. -/
def stopState (s : AState) : AState := { s with st := LState.STOPPED }

/-- Modelled from the spec: one interleaving step of the system, for a
configured byte budget `maxB`.  A producer may append only while the
combined estimated size of the two buffers is within budget (§4.2 with
the §3 invariant's one-in-flight-record overshoot); the writer may swap
only when idle and woken, and may drain only after a swap.  No step
drops a record (`drop_count_` is never incremented — blocking is the
backpressure mechanism). -/
inductive Step (maxB : Int) : AState → AState → Prop
  | start (s : AState) (h : s.st = LState.INITTED) : Step maxB s (startState s)
  | write (s : AState) (m : Msg) (f : Bool) (h : s.st = LState.RUNNING)
      (hcap : s.active.size + s.flushing.size ≤ maxB) :
      Step maxB s (writeState s m f)
  | flushMark (s : AState) (h : s.st = LState.RUNNING) :
      Step maxB s (flushMarkState s)
  | swap (s : AState) (h : s.phase = Phase.idle) (hw : wakeCond s) :
      Step maxB s (swapState s)
  | drain (s : AState) (h : s.phase = Phase.draining) :
      Step maxB s (drainState s)
  | stop (s : AState) (h : s.st = LState.RUNNING) : Step maxB s (stopState s)

/-- Finitely many interleaving steps. -/
inductive Steps (maxB : Int) : AState → AState → Prop
  | refl (s : AState) : Steps maxB s s
  | head {s s' s'' : AState} (hd : Step maxB s s') (tl : Steps maxB s' s'') :
      Steps maxB s s''

lemma Steps.trans {maxB : Int} {a b c : AState} (h₁ : Steps maxB a b)
    (h₂ : Steps maxB b c) : Steps maxB a c := by
  induction h₁ with
  | refl _ => exact h₂
  | head hd _ ih => exact Steps.head hd (ih h₂)

lemma stepSinkMono {maxB : Int} {s s' : AState} (h : Step maxB s s') :
    ∃ t, s'.sink = s.sink ++ t := by
  cases h with
  | start h => exact ⟨[], by simp [startState]⟩
  | write m f h hcap => exact ⟨[], by simp [writeState]⟩
  | flushMark h => exact ⟨[], by simp [flushMarkState]⟩
  | swap h hw => exact ⟨[], by simp [swapState]⟩
  | drain h => exact ⟨s.flushing.messages, rfl⟩
  | stop h => exact ⟨[], by simp [stopState]⟩

lemma steps_sink_mono {maxB : Int} {s s' : AState} (h : Steps maxB s s') :
    ∃ t, s'.sink = s.sink ++ t := by
  induction h with
  | refl s => exact ⟨[], by simp⟩
  | head hd _ ih =>
    obtain ⟨t₁, ht₁⟩ := stepSinkMono hd
    obtain ⟨t₂, ht₂⟩ := ih
    exact ⟨t₁ ++ t₂, by rw [ht₂, ht₁, List.append_assoc]⟩

lemma stepAppendedMono {maxB : Int} {s s' : AState} (h : Step maxB s s') :
    ∃ t, s'.appended = s.appended ++ t := by
  cases h with
  | start h => exact ⟨[], by simp [startState]⟩
  | write m f h hcap => exact ⟨[m], rfl⟩
  | flushMark h => exact ⟨[], by simp [flushMarkState]⟩
  | swap h hw => exact ⟨[], by simp [swapState]⟩
  | drain h => exact ⟨[], by simp [drainState]⟩
  | stop h => exact ⟨[], by simp [stopState]⟩

lemma steps_appended_mono {maxB : Int} {s s' : AState} (h : Steps maxB s s') :
    ∃ t, s'.appended = s.appended ++ t := by
  induction h with
  | refl s => exact ⟨[], by simp⟩
  | head hd _ ih =>
    obtain ⟨t₁, ht₁⟩ := stepAppendedMono hd
    obtain ⟨t₂, ht₂⟩ := ih
    exact ⟨t₁ ++ t₂, by rw [ht₂, ht₁, List.append_assoc]⟩

/-- Conservation invariant of the controller: the ghost append log is
exactly sink-then-flushing-then-active, the flushing buffer is clear
whenever the writer is idle, and no record has ever been dropped. -/
def ConsInv (s : AState) : Prop :=
  s.appended = s.sink ++ s.flushing.messages ++ s.active.messages ∧
    (s.phase = Phase.idle →
      s.flushing.messages = [] ∧ s.flushing.size = 0 ∧
        s.flushing.flush = false) ∧
    s.dropCount = 0

lemma consInv_init : ConsInv initState := by
  refine ⟨rfl, fun _ => ⟨rfl, rfl, rfl⟩, rfl⟩

lemma consInv_step {maxB : Int} {s s' : AState} (h : Step maxB s s')
    (hi : ConsInv s) : ConsInv s' := by
  obtain ⟨h₁, h₂, h₃⟩ := hi
  cases h with
  | start h => exact ⟨h₁, h₂, h₃⟩
  | write m f h hcap =>
    refine ⟨?_, h₂, h₃⟩
    show s.appended ++ [m] =
      s.sink ++ s.flushing.messages ++ (s.active.messages ++ [m])
    rw [h₁]
    simp [List.append_assoc]
  | flushMark h => exact ⟨h₁, h₂, h₃⟩
  | swap h hw =>
    obtain ⟨hfm, _, _⟩ := h₂ h
    refine ⟨?_, ?_, h₃⟩
    · show s.appended = s.sink ++ s.active.messages ++ s.flushing.messages
      rw [h₁, hfm]
      simp
    · intro hph
      cases hph
  | drain h =>
    refine ⟨?_, fun _ => ⟨rfl, rfl, rfl⟩, h₃⟩
    show s.appended =
      (s.sink ++ s.flushing.messages) ++ [] ++ s.active.messages
    rw [h₁]
    simp [List.append_assoc]
  | stop h => exact ⟨h₁, h₂, h₃⟩

lemma consInv_steps {maxB : Int} {s s' : AState} (h : Steps maxB s s')
    (hi : ConsInv s) : ConsInv s' := by
  induction h with
  | refl s => exact hi
  | head hd _ ih => exact ih (consInv_step hd hi)

/-- Claim C3: in every reachable state, the records the sink has
received form a prefix of the full append-order sequence — so the sink
observes records in exactly the order they were appended, with no
reordering within or across buffer generations. -/
theorem order_preservation (maxB : Int) (s : AState)
    (h : Steps maxB initState s) : ∃ t, s.appended = s.sink ++ t := by
  obtain ⟨h₁, _, _⟩ := consInv_steps h consInv_init
  exact ⟨s.flushing.messages ++ s.active.messages, by
    rw [h₁]; simp [List.append_assoc]⟩

/-- Claim C4: while the system runs, no record is ever silently
dropped — in every reachable state, the append log is exactly the
records already forwarded to the sink followed by the contents of the
flushing and active buffers (nothing is discarded), and the drop counter
stays at zero; producers over budget are only blocked, which the step
relation expresses by the `write` guard. -/
theorem no_silent_drop (maxB : Int) (s : AState)
    (h : Steps maxB initState s) :
    s.appended = s.sink ++ s.flushing.messages ++ s.active.messages ∧
      s.dropCount = 0 := by
  obtain ⟨h₁, _, h₃⟩ := consInv_steps h consInv_init
  exact ⟨h₁, h₃⟩

/-- If the writer is mid-drain with `P` already accounted for in
sink-plus-flushing, then whenever it later returns to idle, `P` has been
fully forwarded to the sink. -/
lemma drained_after (P : List Msg) {maxB : Int} {s s₁ : AState}
    (h : Steps maxB s s₁) :
    s.phase = Phase.draining →
    (∃ u, s.sink ++ s.flushing.messages = P ++ u) →
    s₁.phase = Phase.idle → ∃ t, s₁.sink = P ++ t := by
  induction h with
  | refl s =>
    intro hph _ hidle
    rw [hph] at hidle
    cases hidle
  | head hd rest ih =>
    intro hph hu hidle
    cases hd with
    | start h =>
      exact ih (by simpa [startState] using hph)
        (by simpa [startState] using hu) hidle
    | write m f h hcap =>
      exact ih (by simpa [writeState] using hph)
        (by simpa [writeState] using hu) hidle
    | flushMark h =>
      exact ih (by simpa [flushMarkState] using hph)
        (by simpa [flushMarkState] using hu) hidle
    | swap h hw =>
      rw [hph] at h
      cases h
    | drain h =>
      obtain ⟨u, hu⟩ := hu
      obtain ⟨t, ht⟩ := steps_sink_mono rest
      refine ⟨u ++ t, ?_⟩
      rw [ht]
      show _ ++ _ = _
      rw [show (drainState _).sink = _ ++ _ from rfl, hu, List.append_assoc]
    | stop h =>
      exact ih (by simpa [stopState] using hph)
        (by simpa [stopState] using hu) hidle

/-- Claim C1: the `Flush` lower bound.  Take any reachable state `s₀` at
which `Flush` is called, after which the writer performs a full
drain-and-write cycle that starts after the call: from some later state
`sa` it swaps the buffers (the legal swap step requires it to be idle
and woken) and eventually returns to idle in `s₁`.  Then every record
appended strictly before the call — the whole ghost append log of
`s₀` — has been forwarded to the wrapped sink, as a prefix of the sink's
record sequence (records appended later may follow). -/
theorem flush_lower_bound (maxB : Int) (s₀ sa s₁ : AState)
    (hreach : Steps maxB initState s₀)
    (hpre : Steps maxB s₀ sa)
    (hidle : sa.phase = Phase.idle)
    (_hwake : wakeCond sa)
    (hpost : Steps maxB (swapState sa) s₁)
    (hdone : s₁.phase = Phase.idle) :
    ∃ t, s₁.sink = s₀.appended ++ t := by
  obtain ⟨happ, hfl, _⟩ := consInv_steps (Steps.trans hreach hpre) consInv_init
  obtain ⟨hfm, _, _⟩ := hfl hidle
  have key : ∃ u,
      (swapState sa).sink ++ (swapState sa).flushing.messages =
        sa.appended ++ u := by
    refine ⟨[], ?_⟩
    show sa.sink ++ sa.active.messages = sa.appended ++ []
    rw [happ, hfm]
    simp
  obtain ⟨t, ht⟩ := drained_after sa.appended hpost rfl key hdone
  obtain ⟨u', hu'⟩ := steps_appended_mono hpre
  exact ⟨u' ++ t, by rw [ht, hu', List.append_assoc]⟩

/-- Size invariant for the byte budget: both estimates are non-negative
and their sum stays within the budget plus one record's worth `R`. -/
def SizeInv (maxB R : Int) (s : AState) : Prop :=
  0 ≤ s.active.size ∧ 0 ≤ s.flushing.size ∧
    s.active.size + s.flushing.size ≤ maxB + R

lemma sizeInv_steps {maxB R : Int} {s s' : AState} (h : Steps maxB s s')
    (hR31 : maxB + R < 2 ^ 31) :
    SizeInv maxB R s → (∀ m ∈ s'.appended, 0 ≤ m.cost ∧ m.cost ≤ R) →
    SizeInv maxB R s' := by
  induction h with
  | refl s => exact fun hs _ => hs
  | @head u v w hd rest ih =>
    intro hs hc
    apply ih _ hc
    obtain ⟨ha, hf, hsum⟩ := hs
    cases hd with
    | start h => exact ⟨ha, hf, hsum⟩
    | write m f h hcap =>
      obtain ⟨t, ht⟩ := steps_appended_mono rest
      have hm : m ∈ w.appended := by
        rw [ht]
        show m ∈ (_ ++ [m]) ++ t
        simp
      obtain ⟨hc0, hcR⟩ := hc m hm
      have h31 : (0 : Int) < 2 ^ 31 := by norm_num
      have hwrap : wrap32 (u.active.size + m.cost) =
          u.active.size + m.cost := by
        apply wrap32_eq_self
        · linarith
        · linarith
      refine ⟨?_, hf, ?_⟩
      · show 0 ≤ wrap32 (u.active.size + m.cost)
        rw [hwrap]; linarith
      · show wrap32 (u.active.size + m.cost) + u.flushing.size ≤ maxB + R
        rw [hwrap]; linarith
    | flushMark h => exact ⟨ha, hf, hsum⟩
    | swap h hw =>
      exact ⟨hf, ha, by show u.flushing.size + u.active.size ≤ _; linarith⟩
    | drain h =>
      refine ⟨ha, le_refl 0, ?_⟩
      show u.active.size + (0 : Int) ≤ maxB + R
      linarith
    | stop h => exact ⟨ha, hf, hsum⟩

/-- Claim C2: bounded memory.  In every reachable state of the
controller, if every record ever appended costs at most `R` (per-record
overhead plus text length, with `maxB + R` inside the 32-bit range so
the estimates do not wrap), the sum of the two buffers' size estimates
never exceeds the configured budget plus one record's worth of
transient overshoot. -/
theorem bounded_memory (maxB R : Int) (s : AState)
    (h : Steps maxB initState s)
    (hc : ∀ m ∈ s.appended, 0 ≤ m.cost ∧ m.cost ≤ R)
    (hmax : 0 ≤ maxB) (hR : 0 ≤ R) (hR31 : maxB + R < 2 ^ 31) :
    s.active.size + s.flushing.size ≤ maxB + R :=
  (sizeInv_steps h hR31
    ⟨le_refl 0, le_refl 0, by show (0 : Int) + 0 ≤ _; linarith⟩ hc).2.2

/-- Claim C8: the buffer-level predicate `needs_flush_or_write` holds
exactly when the flush flag is set or the message list is non-empty, and
the writer's wake condition on the shared state holds exactly when the
active buffer is non-empty, a flush has been requested on it, or stop
has been signaled. -/
theorem wake_condition_iff (b : Buffer) (s : AState) :
    (b.needs_flush_or_write = true ↔ (b.flush = true ∨ b.messages ≠ [])) ∧
      (wakeCond s ↔ (s.active.messages ≠ [] ∨ s.active.flush = true ∨
        s.st = LState.STOPPED)) := by
  have hb : ∀ c : Buffer,
      c.needs_flush_or_write = true ↔ (c.flush = true ∨ c.messages ≠ []) := by
    intro c
    unfold Buffer.needs_flush_or_write
    rw [Bool.or_eq_true, Bool.not_eq_true', List.isEmpty_eq_false]
  refine ⟨hb b, ?_⟩
  unfold wakeCond
  rw [hb s.active]
  tauto

/-- Modelled from the spec: the body of `AsyncLogger::LogSize` is not
among the sources (only its `uint32_t LogSize() override;` declaration
in the header); per §4.4 it passes the wrapped sink's size through, and
the declared `uint32_t` return type reduces the sink's byte count modulo
2^32. -/
def LogSize (sinkSize : Nat) : Nat := sinkSize % 2 ^ 32

/-- Claim C10: for any underlying sink size at or above 2^32 bytes, the
value `LogSize` reports is the size reduced modulo 2^32, and in
particular differs from the true size — a truncation inaccuracy beyond
mere staleness. -/
theorem logsize_mod32 (n : Nat) (h : 2 ^ 32 ≤ n) :
    LogSize n = n % 2 ^ 32 ∧ LogSize n ≠ n := by
  refine ⟨rfl, ?_⟩
  have hlt : n % 2 ^ 32 < 2 ^ 32 := Nat.mod_lt _ (by norm_num)
  have : LogSize n < n := lt_of_lt_of_le hlt h
  exact Nat.ne_of_lt this

/-- Witness for C10 at sink size 2^32 + 5. -/
theorem logsize_mod32_witness :
    LogSize (2 ^ 32 + 5) = (2 ^ 32 + 5) % 2 ^ 32 ∧
      LogSize (2 ^ 32 + 5) ≠ 2 ^ 32 + 5 :=
  logsize_mod32 (2 ^ 32 + 5) (by norm_num)

-- A small concrete execution used to instantiate the hypotheses of the
-- controller theorems: start the logger, append one record, then let
-- the writer run one swap-and-drain cycle.

/-- A concrete one-byte record. -/
def mA : Msg := ⟨0, ['a'], 0⟩

/-- State after `Start`. -/
def sRun : AState := startState initState

/-- State after one `Write` of `mA`. -/
def sW : AState := writeState sRun mA false

/-- State after the writer swaps the buffers. -/
def sSw : AState := swapState sW

/-- State after the writer drains the swapped-out buffer to the sink. -/
def sDr : AState := drainState sSw

lemma steps_init_sW : Steps 1024 initState sW :=
  Steps.head (Step.start initState rfl)
    (Steps.head (Step.write sRun mA false rfl (by decide)) (Steps.refl sW))

/-- Witness for C1: in the concrete execution, after the post-append
swap-and-drain cycle the sink holds every record appended before it. -/
theorem flush_lower_bound_witness : ∃ t, sDr.sink = sW.appended ++ t :=
  flush_lower_bound 1024 sW sW sDr steps_init_sW (Steps.refl sW) rfl
    (Or.inl (by decide))
    (Steps.head (Step.drain sSw rfl) (Steps.refl sDr)) rfl

/-- Witness for C2 on the concrete execution, with budget 1024 and
per-record bound 49 = sizeof(Msg) + 1. -/
theorem bounded_memory_witness :
    sW.active.size + sW.flushing.size ≤ 1024 + 49 :=
  bounded_memory 1024 49 sW steps_init_sW (by decide) (by decide)
    (by decide) (by decide)

/-- Witness for C3 on the concrete execution. -/
theorem order_preservation_witness : ∃ t, sW.appended = sW.sink ++ t :=
  order_preservation 1024 sW steps_init_sW

/-- Witness for C4 on the concrete execution. -/
theorem no_silent_drop_witness :
    sW.appended = sW.sink ++ sW.flushing.messages ++ sW.active.messages ∧
      sW.dropCount = 0 :=
  no_silent_drop 1024 sW steps_init_sW
